import Mathlib

/-!
Shallow embedding of the cryptographic core of a three-party MPC toolkit:
finite-field serialization (`src/ff/field.rs`), PRSS public-key exchange
(`src/helpers/prss_protocol.rs`), the distributed shuffle/unshuffle protocol
(`src/protocol/sort/shuffle.rs`) and the insecure DP noise module
(`src/protocol/dp/insecure.rs`), together with proofs of the specified
properties.
-/

namespace Ipa

/-- The three helper parties (the `Role` enum of the `helpers` module). -/
inductive Role where
  | h1
  | h2
  | h3
  deriving DecidableEq, Repr

/-- Direction of a neighbor on the helper ring. -/
inductive Direction where
  | left
  | right
  deriving DecidableEq, Repr

/-- Modelled from the spec: the `Role::peer` function is not under `src/`
(only its callers are). Spec §3 fixes the ring `H1 → H2 → H3 → H1` and §4.D
states that each helper's `Right` peer is its clockwise successor on that
ring, so `peer Right` is the successor and `peer Left` the predecessor. -/
def Role.peer : Role → Direction → Role
  | .h1, .left => .h3
  | .h1, .right => .h2
  | .h2, .left => .h1
  | .h2, .right => .h3
  | .h3, .left => .h2
  | .h3, .right => .h1

/-- The three shuffle rounds (`ShuffleStep` in `src/protocol/sort/shuffle.rs`). -/
inductive ShuffleStep where
  | step1
  | step2
  | step3
  deriving DecidableEq, Repr

/-- Whether a round runs in shuffle or unshuffle mode
(the `ShuffleOrUnshuffle` enum in `src/protocol/sort/shuffle.rs`). -/
inductive ShuffleOrUnshuffle where
  | shuffle
  | unshuffle
  deriving DecidableEq, Repr

/-- The function `shuffle_for_helper` (`src/protocol/sort/shuffle.rs` lines 81-87):
the designated recipient of each round. -/
def shuffleForHelper : ShuffleStep → Role
  | .step1 => .h1
  | .step2 => .h2
  | .step3 => .h3

/-- The permutation selection made inside `shuffle_or_unshuffle_once`
(`src/protocol/sort/shuffle.rs` lines 119-123): component 0 of the pair when
`to_helper.peer(Direction::Left) == ctx.role()`, component 1 otherwise. -/
def choosePermutation {α : Type _} (toHelper role : Role) (perms : α × α) : α :=
  if toHelper.peer Direction.left = role then perms.1 else perms.2

/-- Modelled from the spec: `apply` lives in `src/protocol/sort/apply.rs`,
which is not under `src/`. Spec §4.F: `apply(π, v): v'[i] = v[π[i]]`. -/
def applyPerm {n : ℕ} {α : Type _} (p : Equiv.Perm (Fin n)) (v : Fin n → α) :
    Fin n → α :=
  fun i => v (p i)

/-- Modelled from the spec: `apply_inv` lives in `src/protocol/sort/apply.rs`,
which is not under `src/`. Spec §4.F: `apply_inv(π, v): v'[π[i]] = v[i]`,
equivalently `v'[j] = v[π⁻¹[j]]`. -/
def applyInvPerm {n : ℕ} {α : Type _} (p : Equiv.Perm (Fin n)) (v : Fin n → α) :
    Fin n → α :=
  fun j => v (p.symm j)

/-- The permutation application step of `shuffle_or_unshuffle_once`
(`src/protocol/sort/shuffle.rs` lines 125-128): `apply_inv` in shuffle mode,
`apply` in unshuffle mode. -/
def applyChoice {n : ℕ} {α : Type _} (su : ShuffleOrUnshuffle)
    (p : Equiv.Perm (Fin n)) (v : Fin n → α) : Fin n → α :=
  match su with
  | .shuffle => applyInvPerm p v
  | .unshuffle => applyPerm p v

/-- The function `reshare_all_shares` (`src/protocol/sort/shuffle.rs` lines 90-101):
every element `i` of the input is reshared at `record_id = i` toward the
recipient. The `Context::reshare` capability is external to the core
(spec §4.E), so it is a parameter `reshare` indexed by the record id. -/
def reshareAllShares {n : ℕ} {α : Type _} (reshare : ℕ → α → α)
    (input : Fin n → α) : Fin n → α :=
  fun i => reshare i.val (input i)

/-- The function `shuffle_or_unshuffle_once` (`src/protocol/sort/shuffle.rs` lines 108-131)
as seen by one helper `role`: if the helper is not the round's recipient it
applies the chosen permutation (inverse for shuffle, forward for unshuffle),
then every helper reshares all elements toward the recipient. The share
vector is a function `Fin n → α`, standing for `Vec<S>`. -/
def shuffleOrUnshuffleOnce {n : ℕ} {α : Type _} (role : Role)
    (perms : Equiv.Perm (Fin n) × Equiv.Perm (Fin n)) (su : ShuffleOrUnshuffle)
    (step : ShuffleStep) (reshare : ℕ → α → α) (input : Fin n → α) : Fin n → α :=
  let toHelper := shuffleForHelper step
  let shuffled :=
    if toHelper ≠ role then
      applyChoice su (choosePermutation toHelper role perms) input
    else input
  reshareAllShares reshare shuffled

/-- The function `shuffle_shares` (`src/protocol/sort/shuffle.rs` lines 141-170):
rounds Step1, Step2, Step3 in shuffle mode. -/
def shuffleShares {n : ℕ} {α : Type _} (role : Role)
    (perms : Equiv.Perm (Fin n) × Equiv.Perm (Fin n)) (reshare : ℕ → α → α)
    (input : Fin n → α) : Fin n → α :=
  shuffleOrUnshuffleOnce role perms .shuffle .step3 reshare
    (shuffleOrUnshuffleOnce role perms .shuffle .step2 reshare
      (shuffleOrUnshuffleOnce role perms .shuffle .step1 reshare input))

/-- The function `unshuffle_shares` (`src/protocol/sort/shuffle.rs` lines 176-205):
rounds Step3, Step2, Step1 in unshuffle mode. -/
def unshuffleShares {n : ℕ} {α : Type _} (role : Role)
    (perms : Equiv.Perm (Fin n) × Equiv.Perm (Fin n)) (reshare : ℕ → α → α)
    (input : Fin n → α) : Fin n → α :=
  shuffleOrUnshuffleOnce role perms .unshuffle .step1 reshare
    (shuffleOrUnshuffleOnce role perms .unshuffle .step2 reshare
      (shuffleOrUnshuffleOnce role perms .unshuffle .step3 reshare input))

/-- Little-endian byte list of length `k` of a natural number; with `k = 16`
this is `u128::to_le_bytes`. -/
def leBytes : ℕ → ℕ → List ℕ
  | 0, _ => []
  | k + 1, a => a % 256 :: leBytes k (a / 256)

/-- One in-place swap of positions `i` and `j` of a vector (`Vec::swap`),
modelled on lists: both old values are read first, then written. -/
def listSwap (l : List ℕ) (i j : ℕ) : List ℕ :=
  (l.set i (l.getD j 0)).set j (l.getD i 0)

/-- Modelled from the spec and the `rand` crate contract: `SliceRandom::shuffle`
is the in-place Fisher-Yates shuffle (spec §4.D step 3). Iteration `i` runs
from `len - 1` down to `1` and swaps position `i` with a sampled position in
`[0, i + 1)`. The random stream is abstracted as an index oracle `g`; the
reduction `g i % (i + 1)` records only that the sampled index is in range. -/
def fisherYatesAux (g : ℕ → ℕ) (l : List ℕ) : ℕ → List ℕ
  | 0 => l
  | i + 1 => fisherYatesAux g (listSwap l (i + 1) (g (i + 1) % (i + 2))) i

/-- Fisher-Yates shuffle of a whole list, swapping at positions
`len - 1, …, 1`. -/
def fisherYates (g : ℕ → ℕ) (l : List ℕ) : List ℕ :=
  fisherYatesAux g l (l.length - 1)

/-- The function `get_two_of_three_random_permutations`
(`src/protocol/sort/shuffle.rs` lines 40-74): draws PRSS values at indices
`batchsize` and `batchsize + 1`, concatenates their little-endian bytes into a
32-byte seed per side, and Fisher-Yates-shuffles two identity permutations of
`[0, batchsize)`. `generateValues` stands for
`IndexedSharedRandomness::generate_values` (left component first), and
`chacha` abstracts `ChaCha8Rng::from_seed`, mapping a 32-byte seed to the
deterministic index stream that drives the swaps. -/
def getTwoOfThreeRandomPermutations (chacha : List ℕ → ℕ → ℕ) (batchsize : ℕ)
    (generateValues : ℕ → ℕ × ℕ) : List ℕ × List ℕ :=
  let randoms := (generateValues batchsize, generateValues (batchsize + 1))
  let seedLeft := leBytes 16 randoms.1.1 ++ leBytes 16 randoms.2.1
  let seedRight := leBytes 16 randoms.1.2 ++ leBytes 16 randoms.2.2
  (fisherYates (chacha seedLeft) (List.range batchsize),
    fisherYates (chacha seedRight) (List.range batchsize))

/-- The error `IncompletePublicKey` (`src/helpers/prss_protocol.rs` lines
72-76): carries the number of chunks that were appended before `build`. -/
structure IncompletePublicKey where
  incompleteCount : ℕ
  deriving DecidableEq, Repr

/-- The method `IncompletePublicKey::record_id` (`src/helpers/prss_protocol.rs` lines
78-83): widens the `u8` count to a `RecordId`. -/
def IncompletePublicKey.recordId (e : IncompletePublicKey) : ℕ :=
  e.incompleteCount

/-- The builder `PublicKeyBytesBuilder` (`src/helpers/prss_protocol.rs` lines 150-154):
accumulated public-key bytes plus a `u8` chunk counter. A chunk is the byte
list of one 8-byte `PublicKeyChunk`. -/
structure PublicKeyBytesBuilder where
  bytes : List ℕ
  count : ℕ
  deriving DecidableEq, Repr

/-- The constant `PublicKeyBytesBuilder::FULL_COUNT = 4`. -/
def fullCount : ℕ := 4

/-- The constructor `PublicKeyBytesBuilder::empty`. -/
def PublicKeyBytesBuilder.empty : PublicKeyBytesBuilder :=
  ⟨[], 0⟩

/-- The method `PublicKeyBytesBuilder::append_chunk`: extends the byte buffer with the
chunk's bytes and bumps the `u8` counter (`u8` addition wraps at 256). -/
def PublicKeyBytesBuilder.appendChunk (b : PublicKeyBytesBuilder)
    (chunk : List ℕ) : PublicKeyBytesBuilder :=
  ⟨b.bytes ++ chunk, (b.count + 1) % 256⟩

/-- Appending a list of chunks in order. -/
def PublicKeyBytesBuilder.appendChunks (b : PublicKeyBytesBuilder)
    (chunks : List (List ℕ)) : PublicKeyBytesBuilder :=
  chunks.foldl PublicKeyBytesBuilder.appendChunk b

/-- The method `PublicKeyBytesBuilder::build` (`src/helpers/prss_protocol.rs` lines
169-177): succeeds with the accumulated bytes exactly when the counter equals
`FULL_COUNT`, and otherwise fails with `IncompletePublicKey` carrying the
counter. -/
def PublicKeyBytesBuilder.build (b : PublicKeyBytesBuilder) :
    Except IncompletePublicKey (List ℕ) :=
  if b.count = fullCount then Except.ok b.bytes
  else Except.error ⟨b.count⟩

/-- Errors surfaced by `negotiate`: either a transport failure from one of the
sends/receives, or the serialization error wrapping an `IncompletePublicKey`
(tagged with its record id) from a failed `build`. -/
inductive NegotiateError (ε : Type _) where
  | transport (e : ε)
  | serializationFailure (recordId : ℕ)
  deriving DecidableEq

/-- The chunk-exchange loop of `negotiate` (`src/helpers/prss_protocol.rs`
lines 48-60), one iteration per record id: both sends and both receives must
succeed (the `try_join!` barrier, sequentialized here), the received chunks
are appended to the two builders, and a later round does not run once an
earlier round has failed. Transport operations are abstract result maps
indexed by record id. -/
def prssExchangeLoop {ε : Type _} (sendL sendR : ℕ → Except ε Unit)
    (recvL recvR : ℕ → Except ε (List ℕ)) :
    List ℕ → PublicKeyBytesBuilder × PublicKeyBytesBuilder →
      Except ε (PublicKeyBytesBuilder × PublicKeyBytesBuilder)
  | [], bs => Except.ok bs
  | i :: rest, bs =>
    match sendL i with
    | Except.error e => Except.error e
    | Except.ok _ =>
      match sendR i with
      | Except.error e => Except.error e
      | Except.ok _ =>
        match recvL i with
        | Except.error e => Except.error e
        | Except.ok cl =>
          match recvR i with
          | Except.error e => Except.error e
          | Except.ok cr =>
            prssExchangeLoop sendL sendR recvL recvR rest
              (bs.1.appendChunk cl, bs.2.appendChunk cr)

/-- The function `negotiate` (`src/helpers/prss_protocol.rs` lines 23-70) after the local
key generation: run the four exchange rounds, then build both received public
keys; a failed `build` becomes a serialization error tagged with the record
id of the `IncompletePublicKey`. The returned endpoint is modelled by the two
received 32-byte public keys it is built from. -/
def negotiate {ε : Type _} (sendL sendR : ℕ → Except ε Unit)
    (recvL recvR : ℕ → Except ε (List ℕ)) :
    Except (NegotiateError ε) (List ℕ × List ℕ) :=
  match prssExchangeLoop sendL sendR recvL recvR (List.range 4)
      (PublicKeyBytesBuilder.empty, PublicKeyBytesBuilder.empty) with
  | Except.error e => Except.error (NegotiateError.transport e)
  | Except.ok bs =>
    match bs.1.build with
    | Except.error err =>
      Except.error (NegotiateError.serializationFailure err.recordId)
    | Except.ok pkL =>
      match bs.2.build with
      | Except.error err =>
        Except.error (NegotiateError.serializationFailure err.recordId)
      | Except.ok pkR => Except.ok (pkL, pkR)

/-- The `FieldType` enum (`src/ff/field.rs` lines 114-119). -/
inductive FieldType where
  | fp2
  | fp31
  | fp32BitPrime
  deriving DecidableEq, Repr

/-- Modelled from the spec: the concrete field types live outside `src/`;
§3 gives the moduli 2, 31 and `2³² − 5`. -/
def FieldType.prime : FieldType → ℕ
  | .fp2 => 2
  | .fp31 => 31
  | .fp32BitPrime => 2 ^ 32 - 5

/-- Modelled from the spec: `SIZE_IN_BYTES = Integer::BITS / 8` with backing
types `u8`, `u8`, `u32` (§3), hence 1, 1, 4. -/
def FieldType.sizeInBytes : FieldType → ℕ
  | .fp2 => 1
  | .fp31 => 1
  | .fp32BitPrime => 4

/-- Modelled from the spec: `from(u128)` of each field reduces the input
modulo `PRIME` (§4.A). A field element is its canonical representative. -/
def FieldType.fromU128 (ft : FieldType) (x : ℕ) : ℕ :=
  x % ft.prime

/-- The value of a little-endian byte list (`u128::from_le_bytes` of the
zero-padded buffer). -/
def leVal : List ℕ → ℕ
  | [] => 0
  | b :: t => b + 256 * leVal t

/-- The two `std::io::ErrorKind` values used by the codec boundaries. -/
inductive IoErrorKind where
  | writeZero
  | unexpectedEof
  deriving DecidableEq, Repr

/-- The generic `Field::serialize` (`src/ff/field.rs` lines 69-86): writes the first
`SIZE_IN_BYTES` little-endian bytes of the canonical representative into the
buffer prefix when the buffer is large enough, and otherwise fails with a
`WriteZero` error. -/
def fieldSerialize (ft : FieldType) (a : ℕ) (buf : List ℕ) :
    Except IoErrorKind (List ℕ) :=
  if ft.sizeInBytes ≤ buf.length then
    Except.ok (leBytes ft.sizeInBytes a ++ buf.drop ft.sizeInBytes)
  else Except.error IoErrorKind.writeZero

/-- The generic `Field::deserialize` (`src/ff/field.rs` lines 97-111): reads the
`SIZE_IN_BYTES` prefix of the buffer little-endian, zero-extends it to a
`u128` and ingests it through `from(u128)` (which reduces modulo the prime);
fails with `UnexpectedEof` on a short buffer. -/
def fieldDeserialize (ft : FieldType) (buf : List ℕ) :
    Except IoErrorKind ℕ :=
  if ft.sizeInBytes ≤ buf.length then
    Except.ok (ft.fromU128 (leVal (buf.take ft.sizeInBytes)))
  else Except.error IoErrorKind.unexpectedEof

/-- Byte-level `u8::to_ascii_lowercase`: fold `A`..`Z` (65..90) to lowercase. -/
def asciiLower (b : ℕ) : ℕ :=
  if 65 ≤ b ∧ b ≤ 90 then b + 32 else b

/-- Byte-wise `str::eq_ignore_ascii_case`: equal lengths and pointwise equal bytes after
ASCII lowercasing, here expressed as equality of the lowercased lists. -/
def eqIgnoreAsciiCase (a b : List ℕ) : Bool :=
  a.map asciiLower == b.map asciiLower

/-- Modelled from the spec: `Fp2::TYPE_STR` is defined outside `src/`; §4.A
gives the canonical name "fp2", written here as its UTF-8 bytes. -/
def fp2TypeStr : List ℕ :=
  [102, 112, 50]

/-- Modelled from the spec: `Fp31::TYPE_STR = "fp31"` as UTF-8 bytes. -/
def fp31TypeStr : List ℕ :=
  [102, 112, 51, 49]

/-- Modelled from the spec: `Fp32BitPrime::TYPE_STR = "fp32BitPrime"` as
UTF-8 bytes. -/
def fp32BitPrimeTypeStr : List ℕ :=
  [102, 112, 51, 50, 66, 105, 116, 80, 114, 105, 109, 101]

/-- The method `FieldType::as_ref` (`src/ff/field.rs` lines 132-140): the canonical
name of each tag. -/
def FieldType.asRef : FieldType → List ℕ
  | .fp2 => fp2TypeStr
  | .fp31 => fp31TypeStr
  | .fp32BitPrime => fp32BitPrimeTypeStr

/-- The parser `FieldTypeVisitor::visit_str` (`src/ff/field.rs` lines 162-177): compare
the input case-insensitively against the three `TYPE_STR` names in order,
and fail with an `UnknownField` error carrying the offending string. -/
def visitStr (s : List ℕ) : Except (List ℕ) FieldType :=
  if eqIgnoreAsciiCase s fp2TypeStr then Except.ok FieldType.fp2
  else if eqIgnoreAsciiCase s fp31TypeStr then Except.ok FieldType.fp31
  else if eqIgnoreAsciiCase s fp32BitPrimeTypeStr then
    Except.ok FieldType.fp32BitPrime
  else Except.error s

/-- The smallest positive normal `f64`, `f64::MIN_POSITIVE = 2⁻¹⁰²²`, as an
exact rational. -/
def minPosQ : ℚ :=
  1 / 2 ^ 1022

/-- IEEE-754 double values as used by `Dp::new`: NaN, or a finite value
modelled as an exact rational. Infinities do not arise in the verified
paths. -/
inductive F64 where
  | nan
  | num (q : ℚ)
  deriving DecidableEq

/-- IEEE `<` on doubles: any comparison involving NaN is false. -/
def F64.lt : F64 → F64 → Bool
  | .num a, .num b => decide (a < b)
  | _, _ => false

/-- IEEE `<=` on doubles: any comparison involving NaN is false. -/
def F64.le : F64 → F64 → Bool
  | .num a, .num b => decide (a ≤ b)
  | _, _ => false

/-- f64 multiplication on the modelled values: NaN propagates, finite
products are exact (rounding is below the abstraction level of the spec
formula). -/
def F64.mul : F64 → F64 → F64
  | .num a, .num b => .num (a * b)
  | _, _ => .nan

/-- f64 division on the modelled values: NaN propagates; the zero-divisor
case never arises in `Dp::new` because both divisors have passed a
positivity check. -/
def F64.div : F64 → F64 → F64
  | .num a, .num b => if b = 0 then .nan else .num (a / b)
  | _, _ => .nan

/-- The constant `f64::MIN_POSITIVE` as a modelled double. -/
def minPosF64 : F64 :=
  .num minPosQ

/-- The f64 value of the expression `1.0 - f64::MIN_POSITIVE` evaluated by
the code: the exact difference `1 - 2⁻¹⁰²²` is within half an ulp of `1.0`
(the predecessor of `1.0` is `1 - 2⁻⁵³`), so IEEE round-to-nearest yields
exactly `1.0`. -/
def deltaUpperBound : F64 :=
  .num 1

/-- The DP construction errors (`src/protocol/dp/insecure.rs` lines 8-14). -/
inductive DpError where
  | badEpsilon (e : F64)
  | badDelta (d : F64)
  deriving DecidableEq

/-- The `BoxMuller` distribution parameters stored in `Dp`. -/
structure BoxMuller where
  mean : F64
  std : F64
  deriving DecidableEq

/-- The constructor `Dp::new` (`src/protocol/dp/insecure.rs` lines 26-47): reject
`epsilon < f64::MIN_POSITIVE`, then reject `delta` outside
`f64::MIN_POSITIVE..=1.0 - f64::MIN_POSITIVE` (whose upper endpoint is the
double `1.0`, see `deltaUpperBound`), then build the distribution with mean 0
and standard deviation `(cap / epsilon) * sqrt(2.0 * ln(1.25 / delta))`.
`fsqrt` and `fln` are the `f64::sqrt` and `f64::ln` intrinsics, abstracted as
function parameters. -/
def dpNew (fsqrt fln : F64 → F64) (epsilon delta cap : F64) :
    Except DpError BoxMuller :=
  if epsilon.lt minPosF64 then Except.error (DpError.badEpsilon epsilon)
  else if !(minPosF64.le delta && delta.le deltaUpperBound) then
    Except.error (DpError.badDelta delta)
  else
    Except.ok ⟨F64.num 0,
      (cap.div epsilon).mul
        (fsqrt ((F64.num 2).mul (fln ((F64.num (5 / 4)).div delta))))⟩

/-- C1 counterexample: at round Step1 the recipient is H1, and H1 *is* H2's
left neighbor (`H2.peer(Left) = H1`), yet helper H2 chooses component 1 of the
permutation pair, not component 0 as the claim demands. -/
theorem choose_perm_left_neighbor_counterexample :
    Role.h2.peer Direction.left = Role.h1 ∧
      shuffleForHelper ShuffleStep.step1 ≠ Role.h2 ∧
      choosePermutation (shuffleForHelper ShuffleStep.step1) Role.h2
        ((0 : ℕ), (1 : ℕ)) = 1 := by
  decide

/-- C1 (amended): for every round whose recipient differs from the current
role, the helper chooses the left permutation (component 0) exactly when the
recipient is this helper's *right* neighbor — equivalently, when this helper
is the recipient's left neighbor — and otherwise chooses the right
permutation (component 1). -/
theorem choose_perm_right_neighbor {α : Type _} (step : ShuffleStep)
    (role : Role) (perms : α × α) (h : shuffleForHelper step ≠ role) :
    choosePermutation (shuffleForHelper step) role perms =
      if role.peer Direction.right = shuffleForHelper step then perms.1
      else perms.2 := by
  cases step <;> cases role <;>
    simp_all [choosePermutation, shuffleForHelper, Role.peer]

/-- Witness for the amended C1 theorem at step Step1 and role H3: H1 is H3's
right neighbor and component 0 is chosen. -/
theorem choose_perm_right_neighbor_witness :
    shuffleForHelper ShuffleStep.step1 ≠ Role.h3 ∧
      choosePermutation (shuffleForHelper ShuffleStep.step1) Role.h3
          ((0 : ℕ), (1 : ℕ)) =
        if Role.h3.peer Direction.right = shuffleForHelper ShuffleStep.step1
        then 0 else 1 :=
  ⟨by decide, choose_perm_right_neighbor ShuffleStep.step1 Role.h3 (0, 1)
    (by decide)⟩

theorem listSwap_length (l : List ℕ) (i j : ℕ) :
    (listSwap l i j).length = l.length := by
  simp [listSwap]

theorem count_set (l : List ℕ) (i a x : ℕ) (h : i < l.length) :
    (l.set i a).count x + (if l.getD i 0 = x then 1 else 0) =
      l.count x + (if a = x then 1 else 0) := by
  induction l generalizing i with
  | nil => simp at h
  | cons b t ih =>
    cases i with
    | zero =>
      simp only [List.set_cons_zero, List.getD_cons_zero, List.count_cons,
        beq_iff_eq]
      omega
    | succ i =>
      have hi : i < t.length := by simpa using h
      have := ih i hi
      simp only [List.set_cons_succ, List.getD_cons_succ, List.count_cons,
        beq_iff_eq]
      omega

theorem listSwap_getD (l : List ℕ) (i j : ℕ) (hi : i < l.length)
    (hj : j < l.length) :
    (l.set i (l.getD j 0)).getD j 0 = l.getD j 0 := by
  by_cases hij : i = j
  · subst hij
    simp [List.getD_eq_getElem?_getD, List.getElem?_set_self (by simpa using hi)]
  · simp [List.getD_eq_getElem?_getD, List.getElem?_set_ne hij]

theorem listSwap_perm (l : List ℕ) (i j : ℕ) (hi : i < l.length)
    (hj : j < l.length) : (listSwap l i j).Perm l := by
  rw [List.perm_iff_count]
  intro x
  have h1 := count_set l i (l.getD j 0) x hi
  have h2 := count_set (l.set i (l.getD j 0)) j (l.getD i 0) x
    (by simpa using hj)
  rw [listSwap_getD l i j hi hj] at h2
  unfold listSwap
  omega

theorem fisherYatesAux_perm (g : ℕ → ℕ) (l : List ℕ) (k : ℕ)
    (hk : k < l.length) : (fisherYatesAux g l k).Perm l := by
  induction k generalizing l with
  | zero => exact List.Perm.refl l
  | succ k ih =>
    have hs : k + 1 < l.length := hk
    have ht : g (k + 1) % (k + 2) < l.length :=
      lt_of_lt_of_le (Nat.mod_lt _ (by omega)) (by omega)
    have hlen : (listSwap l (k + 1) (g (k + 1) % (k + 2))).length = l.length :=
      listSwap_length l _ _
    exact (ih _ (by omega)).trans (listSwap_perm l _ _ hs ht)

theorem fisherYates_perm (g : ℕ → ℕ) (l : List ℕ) :
    (fisherYates g l).Perm l := by
  cases l with
  | nil => exact List.Perm.refl _
  | cons b t =>
    exact fisherYatesAux_perm g (b :: t) (b :: t).length.pred (by simp)

/-- C3: for every batchsize representable in `u32` and every PRSS handle (and
every ChaCha8 stream function), both vectors returned by
`get_two_of_three_random_permutations` have length `batchsize` and are valid
permutations of `[0, batchsize)`: every index appears exactly once in each. -/
theorem get_two_of_three_valid_permutations (chacha : List ℕ → ℕ → ℕ)
    (batchsize : ℕ) (generateValues : ℕ → ℕ × ℕ) (_hN : batchsize < 2 ^ 32) :
    ((getTwoOfThreeRandomPermutations chacha batchsize
        generateValues).1.length = batchsize ∧
      (getTwoOfThreeRandomPermutations chacha batchsize
        generateValues).2.length = batchsize) ∧
    (∀ k < batchsize, (getTwoOfThreeRandomPermutations chacha batchsize
        generateValues).1.count k = 1) ∧
    ∀ k < batchsize, (getTwoOfThreeRandomPermutations chacha batchsize
        generateValues).2.count k = 1 := by
  have hperm1 := fisherYates_perm
    (chacha (leBytes 16 (generateValues batchsize).1 ++
      leBytes 16 (generateValues (batchsize + 1)).1)) (List.range batchsize)
  have hperm2 := fisherYates_perm
    (chacha (leBytes 16 (generateValues batchsize).2 ++
      leBytes 16 (generateValues (batchsize + 1)).2)) (List.range batchsize)
  have hcnt : ∀ k < batchsize, (List.range batchsize).count k = 1 := by
    intro k hk
    exact List.count_eq_one_of_mem (List.nodup_range batchsize)
      (List.mem_range.mpr hk)
  refine ⟨⟨?_, ?_⟩, ?_, ?_⟩
  · simpa [getTwoOfThreeRandomPermutations] using
      hperm1.length_eq.trans (List.length_range batchsize)
  · simpa [getTwoOfThreeRandomPermutations] using
      hperm2.length_eq.trans (List.length_range batchsize)
  · intro k hk
    simpa [getTwoOfThreeRandomPermutations] using
      (hperm1.count_eq k).trans (hcnt k hk)
  · intro k hk
    simpa [getTwoOfThreeRandomPermutations] using
      (hperm2.count_eq k).trans (hcnt k hk)

/-- Witness for C3 with batchsize 3, a constant-zero PRSS handle and a
constant-zero ChaCha stream. -/
theorem get_two_of_three_valid_permutations_witness :
    (3 : ℕ) < 2 ^ 32 ∧
      (((getTwoOfThreeRandomPermutations (fun _ _ => 0) 3
          (fun _ => (0, 0))).1.length = 3 ∧
        (getTwoOfThreeRandomPermutations (fun _ _ => 0) 3
          (fun _ => (0, 0))).2.length = 3) ∧
      (∀ k < 3, (getTwoOfThreeRandomPermutations (fun _ _ => 0) 3
          (fun _ => (0, 0))).1.count k = 1) ∧
      ∀ k < 3, (getTwoOfThreeRandomPermutations (fun _ _ => 0) 3
          (fun _ => (0, 0))).2.count k = 1) :=
  ⟨by norm_num, get_two_of_three_valid_permutations (fun _ _ => 0) 3
    (fun _ => (0, 0)) (by norm_num)⟩

/-- C4: if two runs of `get_two_of_three_random_permutations` with the same
batchsize see PRSS values whose right component (first run) agrees with the
left component (second run) at indices `batchsize` and `batchsize + 1`, the
right permutation of the first run equals the left permutation of the second
run. -/
theorem paired_runs_share_permutation (chacha : List ℕ → ℕ → ℕ)
    (batchsize : ℕ) (gv1 gv2 : ℕ → ℕ × ℕ)
    (h0 : (gv1 batchsize).2 = (gv2 batchsize).1)
    (h1 : (gv1 (batchsize + 1)).2 = (gv2 (batchsize + 1)).1) :
    (getTwoOfThreeRandomPermutations chacha batchsize gv1).2 =
      (getTwoOfThreeRandomPermutations chacha batchsize gv2).1 := by
  simp [getTwoOfThreeRandomPermutations, h0, h1]

/-- Witness for C4: a pair of concrete PRSS handles whose streams overlap as
required. -/
theorem paired_runs_share_permutation_witness :
    ((fun _ => ((5 : ℕ), (7 : ℕ))) 2).2 = ((fun _ => ((7 : ℕ), (9 : ℕ))) 2).1 ∧
      (getTwoOfThreeRandomPermutations (fun _ _ => 0) 2
          (fun _ => (5, 7))).2 =
        (getTwoOfThreeRandomPermutations (fun _ _ => 0) 2
          (fun _ => (7, 9))).1 :=
  ⟨rfl, paired_runs_share_permutation (fun _ _ => 0) 2 (fun _ => (5, 7))
    (fun _ => (7, 9)) rfl rfl⟩

/-- C2: for every helper role, every input vector and every pair of
permutations of the index set, if `Context::reshare` returns its input share
unchanged then unshuffle (rounds Step3, Step2, Step1 with `apply`) of shuffle
(rounds Step1, Step2, Step3 with `apply_inv`) returns the input exactly,
component-wise. -/
theorem unshuffle_shuffle_roundtrip {n : ℕ} {α : Type _} (role : Role)
    (perms : Equiv.Perm (Fin n) × Equiv.Perm (Fin n)) (reshare : ℕ → α → α)
    (hr : ∀ i a, reshare i a = a) (x : Fin n → α) :
    unshuffleShares role perms reshare (shuffleShares role perms reshare x) =
      x := by
  have hre : ∀ v : Fin n → α, reshareAllShares reshare v = v := by
    intro v
    funext i
    simp [reshareAllShares, hr]
  have key : ∀ (step : ShuffleStep) (v : Fin n → α),
      shuffleOrUnshuffleOnce role perms .unshuffle step reshare
        (shuffleOrUnshuffleOnce role perms .shuffle step reshare v) = v := by
    intro step v
    simp only [shuffleOrUnshuffleOnce, hre]
    by_cases h : shuffleForHelper step ≠ role
    · simp only [if_pos h]
      funext j
      simp [applyChoice, applyPerm, applyInvPerm]
    · simp only [if_neg h]
  simp only [shuffleShares, unshuffleShares, key]

/-- Witness for C2 at a concrete instance: two elements, role H1, both
permutations the transposition of the two indices, identity reshare. -/
theorem unshuffle_shuffle_roundtrip_witness :
    unshuffleShares Role.h1
        (Equiv.swap (0 : Fin 2) 1, Equiv.swap (0 : Fin 2) 1) (fun _ a => a)
        (shuffleShares Role.h1
          (Equiv.swap (0 : Fin 2) 1, Equiv.swap (0 : Fin 2) 1) (fun _ a => a)
          (fun i => (i.val : ℕ))) =
      fun i => (i.val : ℕ) :=
  unshuffle_shuffle_roundtrip Role.h1
    (Equiv.swap (0 : Fin 2) 1, Equiv.swap (0 : Fin 2) 1) (fun _ a => a)
    (fun _ _ => rfl) (fun i => (i.val : ℕ))

theorem appendChunks_count (b : PublicKeyBytesBuilder)
    (chunks : List (List ℕ)) (hb : b.count < 256) :
    (b.appendChunks chunks).count = (b.count + chunks.length) % 256 := by
  induction chunks generalizing b with
  | nil =>
    simp only [PublicKeyBytesBuilder.appendChunks, List.foldl_nil,
      List.length_nil]
    omega
  | cons c t ih =>
    have := ih (b.appendChunk c)
      (by simp only [PublicKeyBytesBuilder.appendChunk]; omega)
    simp only [PublicKeyBytesBuilder.appendChunks, List.foldl_cons] at this ⊢
    rw [this]
    simp only [PublicKeyBytesBuilder.appendChunk, List.length_cons]
    omega

/-- C5: building after exactly `i < 4` appended chunks fails with
`IncompletePublicKey` carrying count `i`, whose `record_id` equals `i`; after
exactly 4 chunks the build succeeds. -/
theorem build_after_chunks (chunks : List (List ℕ)) :
    (chunks.length < 4 →
      (PublicKeyBytesBuilder.empty.appendChunks chunks).build =
          Except.error ⟨chunks.length⟩ ∧
        IncompletePublicKey.recordId ⟨chunks.length⟩ = chunks.length) ∧
    (chunks.length = 4 →
      (PublicKeyBytesBuilder.empty.appendChunks chunks).build =
        Except.ok (PublicKeyBytesBuilder.empty.appendChunks chunks).bytes) := by
  have hcount := appendChunks_count PublicKeyBytesBuilder.empty chunks
    (by simp [PublicKeyBytesBuilder.empty])
  have hcz : PublicKeyBytesBuilder.empty.count = 0 := rfl
  rw [hcz] at hcount
  constructor
  · intro hlt
    have hc : (PublicKeyBytesBuilder.empty.appendChunks chunks).count =
        chunks.length := by
      rw [hcount]
      omega
    refine ⟨?_, rfl⟩
    simp only [PublicKeyBytesBuilder.build, hc, fullCount]
    rw [if_neg (by omega)]
  · intro heq
    have hc : (PublicKeyBytesBuilder.empty.appendChunks chunks).count = 4 := by
      rw [hcount]
      omega
    simp [PublicKeyBytesBuilder.build, hc, fullCount]

/-- Witness for C5 with two concrete 8-byte chunks (build fails with count 2,
record id 2) and the length-4 success case exercised separately below. -/
theorem build_after_chunks_witness :
    ([[0, 1, 2, 3, 4, 5, 6, 7], [8, 9, 10, 11, 12, 13, 14, 15]] :
        List (List ℕ)).length < 4 ∧
      (PublicKeyBytesBuilder.empty.appendChunks
            [[0, 1, 2, 3, 4, 5, 6, 7], [8, 9, 10, 11, 12, 13, 14, 15]]).build =
          Except.error ⟨2⟩ ∧
        IncompletePublicKey.recordId ⟨2⟩ = 2 :=
  ⟨by decide, (build_after_chunks
    [[0, 1, 2, 3, 4, 5, 6, 7], [8, 9, 10, 11, 12, 13, 14, 15]]).1 (by decide)⟩

theorem prssExchangeLoop_ok_count {ε : Type _} (sendL sendR : ℕ → Except ε Unit)
    (recvL recvR : ℕ → Except ε (List ℕ)) (l : List ℕ)
    (bs bs' : PublicKeyBytesBuilder × PublicKeyBytesBuilder)
    (hb1 : bs.1.count < 256) (hb2 : bs.2.count < 256)
    (h : prssExchangeLoop sendL sendR recvL recvR l bs = Except.ok bs') :
    bs'.1.count = (bs.1.count + l.length) % 256 ∧
      bs'.2.count = (bs.2.count + l.length) % 256 := by
  induction l generalizing bs with
  | nil =>
    simp only [prssExchangeLoop] at h
    cases h
    simp only [List.length_nil]
    constructor <;> omega
  | cons i rest ih =>
    simp only [prssExchangeLoop] at h
    cases hsl : sendL i with
    | error e => simp [hsl] at h
    | ok u =>
      simp only [hsl] at h
      cases hsr : sendR i with
      | error e => simp [hsr] at h
      | ok v =>
        simp only [hsr] at h
        cases hrl : recvL i with
        | error e => simp [hrl] at h
        | ok cl =>
          simp only [hrl] at h
          cases hrr : recvR i with
          | error e => simp [hrr] at h
          | ok cr =>
            simp only [hrr] at h
            have := ih (bs.1.appendChunk cl, bs.2.appendChunk cr)
              (by simp only [PublicKeyBytesBuilder.appendChunk]; omega)
              (by simp only [PublicKeyBytesBuilder.appendChunk]; omega) h
            simp only [PublicKeyBytesBuilder.appendChunk,
              List.length_cons] at this ⊢
            omega

theorem prssExchangeLoop_all_ok {ε : Type _} (sendL sendR : ℕ → Except ε Unit)
    (recvL recvR : ℕ → Except ε (List ℕ)) (l : List ℕ)
    (bs : PublicKeyBytesBuilder × PublicKeyBytesBuilder)
    (h : ∀ i ∈ l, sendL i = Except.ok () ∧ sendR i = Except.ok () ∧
      (∃ c, recvL i = Except.ok c) ∧ ∃ c, recvR i = Except.ok c) :
    ∃ bs', prssExchangeLoop sendL sendR recvL recvR l bs = Except.ok bs' := by
  induction l generalizing bs with
  | nil => exact ⟨bs, rfl⟩
  | cons i rest ih =>
    obtain ⟨hsl, hsr, ⟨cl, hrl⟩, ⟨cr, hrr⟩⟩ := h i (by simp)
    have hrest : ∀ j ∈ rest, sendL j = Except.ok () ∧
        sendR j = Except.ok () ∧ (∃ c, recvL j = Except.ok c) ∧
        ∃ c, recvR j = Except.ok c := by
      intro j hj
      exact h j (by simp [hj])
    obtain ⟨bs', hbs'⟩ := ih (bs.1.appendChunk cl, bs.2.appendChunk cr) hrest
    refine ⟨bs', ?_⟩
    simp only [prssExchangeLoop, hsl, hsr, hrl, hrr]
    exact hbs'

/-- C9: if all four exchange rounds' sends and receives succeed, each builder
has been given exactly 4 chunks, both `build` calls succeed and `negotiate`
returns the two received public keys; and whenever `negotiate` fails, the
error is a transport error — the `IncompletePublicKey` serialization branch
is unreachable. -/
theorem negotiate_only_transport_errors {ε : Type _}
    (sendL sendR : ℕ → Except ε Unit) (recvL recvR : ℕ → Except ε (List ℕ)) :
    ((∀ i < 4, sendL i = Except.ok () ∧ sendR i = Except.ok () ∧
        (∃ c, recvL i = Except.ok c) ∧ ∃ c, recvR i = Except.ok c) →
      ∃ pks, negotiate sendL sendR recvL recvR = Except.ok pks) ∧
    ∀ r, negotiate sendL sendR recvL recvR = Except.error r →
      ∃ e, r = NegotiateError.transport e := by
  have hbuild : ∀ bs : PublicKeyBytesBuilder × PublicKeyBytesBuilder,
      prssExchangeLoop sendL sendR recvL recvR (List.range 4)
          (PublicKeyBytesBuilder.empty, PublicKeyBytesBuilder.empty) =
        Except.ok bs →
      bs.1.build = Except.ok bs.1.bytes ∧ bs.2.build = Except.ok bs.2.bytes := by
    intro bs hok
    obtain ⟨hc1, hc2⟩ := prssExchangeLoop_ok_count sendL sendR recvL recvR
      (List.range 4) _ bs (by decide) (by decide) hok
    have e1 : bs.1.count = 4 := hc1.trans (by decide)
    have e2 : bs.2.count = 4 := hc2.trans (by decide)
    constructor <;> simp [PublicKeyBytesBuilder.build, e1, e2, fullCount]
  constructor
  · intro hall
    obtain ⟨bs, hbs⟩ := prssExchangeLoop_all_ok sendL sendR recvL recvR
      (List.range 4) (PublicKeyBytesBuilder.empty, PublicKeyBytesBuilder.empty)
      (by intro i hi; exact hall i (by simpa using hi))
    obtain ⟨h1, h2⟩ := hbuild bs hbs
    exact ⟨(bs.1.bytes, bs.2.bytes), by simp [negotiate, hbs, h1, h2]⟩
  · intro r hr
    unfold negotiate at hr
    cases hloop : prssExchangeLoop sendL sendR recvL recvR (List.range 4)
        (PublicKeyBytesBuilder.empty, PublicKeyBytesBuilder.empty) with
    | error e =>
      rw [hloop] at hr
      simp only at hr
      cases hr
      exact ⟨e, rfl⟩
    | ok bs =>
      obtain ⟨h1, h2⟩ := hbuild bs hloop
      rw [hloop] at hr
      simp only [h1, h2] at hr
      exact Except.noConfusion hr

/-- Witness for C9: all-ok transports produce a successful negotiation. -/
theorem negotiate_only_transport_errors_witness :
    ∃ pks, negotiate (ε := Unit) (fun _ => Except.ok ())
        (fun _ => Except.ok ()) (fun _ => Except.ok [0])
        (fun _ => Except.ok [1]) = Except.ok pks :=
  (negotiate_only_transport_errors (fun _ => Except.ok ())
      (fun _ => Except.ok ()) (fun _ => Except.ok [0])
      (fun _ => Except.ok [1])).1
    (fun _ _ => ⟨rfl, rfl, ⟨[0], rfl⟩, [1], rfl⟩)

theorem leBytes_length (k : ℕ) : ∀ a : ℕ, (leBytes k a).length = k := by
  induction k with
  | zero => intro a; rfl
  | succ k ih => intro a; simp [leBytes, ih]

theorem leVal_leBytes (k : ℕ) : ∀ a : ℕ, leVal (leBytes k a) = a % 256 ^ k := by
  induction k with
  | zero => intro a; simp [leBytes, leVal, Nat.mod_one]
  | succ k ih =>
    intro a
    rw [show (256 : ℕ) ^ (k + 1) = 256 * 256 ^ k by ring, Nat.mod_mul]
    simp [leBytes, leVal, ih]

theorem prime_le_size_bound (ft : FieldType) :
    ft.prime ≤ 256 ^ ft.sizeInBytes := by
  cases ft <;> norm_num [FieldType.prime, FieldType.sizeInBytes]

/-- C6: for every supported field, serializing a field element into a buffer
of the advertised width and deserializing it back returns the element; and
deserializing any byte pattern of the advertised width succeeds with the
little-endian value reduced modulo the prime, matching `from(u128)`. -/
theorem field_serde_roundtrip :
    (∀ (ft : FieldType) (a : ℕ), a < ft.prime →
      fieldSerialize ft a (List.replicate ft.sizeInBytes 0) =
          Except.ok (leBytes ft.sizeInBytes a) ∧
        fieldDeserialize ft (leBytes ft.sizeInBytes a) = Except.ok a) ∧
    ∀ (ft : FieldType) (buf : List ℕ), buf.length = ft.sizeInBytes →
      fieldDeserialize ft buf = Except.ok (leVal buf % ft.prime) := by
  constructor
  · intro ft a ha
    constructor
    · simp [fieldSerialize]
    · have hmod : leVal (leBytes ft.sizeInBytes a) = a := by
        rw [leVal_leBytes]
        exact Nat.mod_eq_of_lt (lt_of_lt_of_le ha (prime_le_size_bound ft))
      simp [fieldDeserialize, leBytes_length, FieldType.fromU128, hmod,
        Nat.mod_eq_of_lt ha, List.take_of_length_le (le_of_eq (leBytes_length ft.sizeInBytes a))]
  · intro ft buf hlen
    simp [fieldDeserialize, hlen.ge, FieldType.fromU128,
      List.take_of_length_le hlen.le]

/-- Witness for C6 at the field Fp31 with element 17, and the
out-of-range byte pattern 200 for Fp2 (reduced to 0 modulo 2). -/
theorem field_serde_roundtrip_witness :
    ((17 : ℕ) < FieldType.fp31.prime ∧
      fieldSerialize FieldType.fp31 17
          (List.replicate FieldType.fp31.sizeInBytes 0) =
        Except.ok (leBytes FieldType.fp31.sizeInBytes 17) ∧
      fieldDeserialize FieldType.fp31 (leBytes FieldType.fp31.sizeInBytes 17) =
        Except.ok 17) ∧
    fieldDeserialize FieldType.fp2 [200] =
      Except.ok (leVal [200] % FieldType.fp2.prime) :=
  ⟨⟨by decide, field_serde_roundtrip.1 FieldType.fp31 17 (by decide)⟩,
    field_serde_roundtrip.2 FieldType.fp2 [200] (by decide)⟩

theorem eqIgnoreAsciiCase_eq (s a : List ℕ) :
    eqIgnoreAsciiCase s a = true ↔ s.map asciiLower = a.map asciiLower := by
  simp [eqIgnoreAsciiCase]

theorem eqIgnoreAsciiCase_common (s a b : List ℕ)
    (ha : eqIgnoreAsciiCase s a = true) (hb : eqIgnoreAsciiCase s b = true) :
    a.map asciiLower = b.map asciiLower := by
  rw [eqIgnoreAsciiCase_eq] at ha hb
  rw [← ha, ← hb]

/-- C7: parsing accepts exactly the case variations of the three canonical
names, mapping each to its tag; the canonical emission re-parses to the same
tag; and every other string is rejected with an error carrying the offending
string. -/
theorem field_type_parse_roundtrip :
    (∀ ft : FieldType, visitStr ft.asRef = Except.ok ft) ∧
    (∀ (s : List ℕ) (ft : FieldType), eqIgnoreAsciiCase s ft.asRef = true →
      visitStr s = Except.ok ft) ∧
    (∀ (s : List ℕ) (ft : FieldType), visitStr s = Except.ok ft →
      eqIgnoreAsciiCase s ft.asRef = true) ∧
    ∀ s : List ℕ, (∀ ft : FieldType, eqIgnoreAsciiCase s ft.asRef = false) →
      visitStr s = Except.error s := by
  have hpos : ∀ (s : List ℕ) (ft : FieldType),
      eqIgnoreAsciiCase s ft.asRef = true → visitStr s = Except.ok ft := by
    intro s ft h
    cases ft with
    | fp2 =>
      simp only [FieldType.asRef] at h
      simp [visitStr, h]
    | fp31 =>
      simp only [FieldType.asRef] at h
      have h2 : eqIgnoreAsciiCase s fp2TypeStr = false := by
        cases hx : eqIgnoreAsciiCase s fp2TypeStr
        · rfl
        · exact absurd (eqIgnoreAsciiCase_common s fp31TypeStr fp2TypeStr h hx)
            (by decide)
      simp [visitStr, h, h2]
    | fp32BitPrime =>
      simp only [FieldType.asRef] at h
      have h2 : eqIgnoreAsciiCase s fp2TypeStr = false := by
        cases hx : eqIgnoreAsciiCase s fp2TypeStr
        · rfl
        · exact absurd
            (eqIgnoreAsciiCase_common s fp32BitPrimeTypeStr fp2TypeStr h hx)
            (by decide)
      have h3 : eqIgnoreAsciiCase s fp31TypeStr = false := by
        cases hx : eqIgnoreAsciiCase s fp31TypeStr
        · rfl
        · exact absurd
            (eqIgnoreAsciiCase_common s fp32BitPrimeTypeStr fp31TypeStr h hx)
            (by decide)
      simp [visitStr, h, h2, h3]
  refine ⟨?_, hpos, ?_, ?_⟩
  · intro ft
    refine hpos ft.asRef ft ?_
    rw [eqIgnoreAsciiCase_eq]
  · intro s ft h
    cases h2 : eqIgnoreAsciiCase s fp2TypeStr with
    | true =>
      simp only [visitStr, h2, if_true] at h
      cases h
      simpa [FieldType.asRef] using h2
    | false =>
      cases h31 : eqIgnoreAsciiCase s fp31TypeStr with
      | true =>
        simp only [visitStr, h2, h31] at h
        cases h
        simpa [FieldType.asRef] using h31
      | false =>
        cases h32 : eqIgnoreAsciiCase s fp32BitPrimeTypeStr with
        | true =>
          simp only [visitStr, h2, h31, h32] at h
          cases h
          simpa [FieldType.asRef] using h32
        | false =>
          simp only [visitStr, h2, h31, h32] at h
          exact Except.noConfusion h
  · intro s hall
    have h2 := hall FieldType.fp2
    have h31 := hall FieldType.fp31
    have h32 := hall FieldType.fp32BitPrime
    simp only [FieldType.asRef] at h2 h31 h32
    simp [visitStr, h2, h31, h32]

/-- Witness for C7: the mixed-case string "FP31" parses to the tag Fp31. -/
theorem field_type_parse_roundtrip_witness :
    eqIgnoreAsciiCase [70, 80, 51, 49] FieldType.fp31.asRef = true ∧
      visitStr [70, 80, 51, 49] = Except.ok FieldType.fp31 :=
  ⟨by decide, field_type_parse_roundtrip.2.1 [70, 80, 51, 49] FieldType.fp31
    (by decide)⟩

/-- C8 counterexample: at `delta = 1.0` the exact value `1 − 2⁻¹⁰²²` lies
outside no f64 check — the code's upper bound `1.0 - f64::MIN_POSITIVE`
rounds to `1.0`, so `Dp::new(1.0, 1.0, 1.0)` succeeds instead of returning
`BadDelta(1.0)` as the claim requires. -/
theorem dp_new_delta_one_counterexample :
    dpNew (fun x => x) (fun x => x) (F64.num 1) (F64.num 1) (F64.num 1) =
        Except.ok ⟨F64.num 0, F64.num (5 / 2)⟩ ∧
      dpNew (fun x => x) (fun x => x) (F64.num 1) (F64.num 1) (F64.num 1) ≠
        Except.error (DpError.badDelta (F64.num 1)) := by
  have h1 : ¬((1 : ℚ) < minPosQ) := by norm_num [minPosQ]
  have h2 : minPosQ ≤ (1 : ℚ) := by norm_num [minPosQ]
  have hok : dpNew (fun x => x) (fun x => x) (F64.num 1) (F64.num 1)
      (F64.num 1) = Except.ok ⟨F64.num 0, F64.num (5 / 2)⟩ := by
    simp [dpNew, F64.lt, F64.le, minPosF64, deltaUpperBound, h1, h2,
      F64.div, F64.mul]
    norm_num
  refine ⟨hok, ?_⟩
  rw [hok]
  simp

/-- C8 (amended): `Dp::new(epsilon, delta, cap)` returns
`BadEpsilon(epsilon)` when `epsilon < f64::MIN_POSITIVE`; otherwise
`BadDelta(delta)` when `delta` lies outside `[f64::MIN_POSITIVE, 1.0]` (the
f64 expression `1.0 - f64::MIN_POSITIVE` for the upper endpoint rounds to
exactly `1.0`); otherwise it succeeds with mean 0 and standard deviation
`(cap / epsilon) * sqrt(2 * ln(1.25 / delta))`. -/
theorem dp_new_amended (fsqrt fln : F64 → F64) (e d : ℚ) (cap : F64) :
    (e < minPosQ →
      dpNew fsqrt fln (F64.num e) (F64.num d) cap =
        Except.error (DpError.badEpsilon (F64.num e))) ∧
    (minPosQ ≤ e → (d < minPosQ ∨ 1 < d) →
      dpNew fsqrt fln (F64.num e) (F64.num d) cap =
        Except.error (DpError.badDelta (F64.num d))) ∧
    (minPosQ ≤ e → minPosQ ≤ d → d ≤ 1 →
      dpNew fsqrt fln (F64.num e) (F64.num d) cap =
        Except.ok ⟨F64.num 0,
          ((cap.div (F64.num e)).mul
            (fsqrt ((F64.num 2).mul
              (fln ((F64.num (5 / 4)).div (F64.num d))))))⟩) := by
  refine ⟨?_, ?_, ?_⟩
  · intro h
    simp [dpNew, F64.lt, minPosF64, h]
  · intro he hd
    have h1 : ¬(e < minPosQ) := not_lt.mpr he
    rcases hd with hd | hd
    · have h2 : ¬(minPosQ ≤ d) := not_le.mpr hd
      simp [dpNew, F64.lt, F64.le, minPosF64, deltaUpperBound, h1, h2]
    · have h2 : ¬(d ≤ 1) := not_le.mpr hd
      simp [dpNew, F64.lt, F64.le, minPosF64, deltaUpperBound, h1, h2]
  · intro he hd1 hd2
    have h1 : ¬(e < minPosQ) := not_lt.mpr he
    simp [dpNew, F64.lt, F64.le, minPosF64, deltaUpperBound, h1, hd1, hd2]

/-- Witness for the amended C8 at `epsilon = 1`, `delta = 1/2`, `cap = 1`
with identity stand-ins for `sqrt` and `ln`. -/
theorem dp_new_amended_witness :
    minPosQ ≤ (1 : ℚ) ∧
      dpNew (fun x => x) (fun x => x) (F64.num 1) (F64.num (1 / 2))
          (F64.num 1) =
        Except.ok ⟨F64.num 0,
          (((F64.num 1).div (F64.num 1)).mul
            ((fun x => x) ((F64.num 2).mul
              ((fun x => x) ((F64.num (5 / 4)).div (F64.num (1 / 2)))))))⟩ :=
  ⟨by norm_num [minPosQ],
    (dp_new_amended (fun x => x) (fun x => x) 1 (1 / 2) (F64.num 1)).2.2
      (by norm_num [minPosQ]) (by norm_num [minPosQ]) (by norm_num)⟩

/-- C10: with a delta inside the accepted range, `Dp::new(NaN, delta, cap)`
succeeds because `NaN < f64::MIN_POSITIVE` evaluates to false, so the
`BadEpsilon` branch is skipped; a NaN delta is rejected with `BadDelta`
whenever the epsilon check does not fire first. -/
theorem dp_new_nan (fsqrt fln : F64 → F64) :
    (∀ (d : ℚ) (cap : F64), minPosQ ≤ d → d ≤ 1 - minPosQ →
      ∃ bm, dpNew fsqrt fln F64.nan (F64.num d) cap = Except.ok bm) ∧
    ∀ epsilon cap : F64, F64.lt epsilon minPosF64 = false →
      dpNew fsqrt fln epsilon F64.nan cap =
        Except.error (DpError.badDelta F64.nan) := by
  constructor
  · intro d cap h1 h2
    have hd2 : d ≤ 1 := by
      have hpos : (0 : ℚ) < minPosQ := by norm_num [minPosQ]
      linarith
    have hok : dpNew fsqrt fln F64.nan (F64.num d) cap =
        Except.ok ⟨F64.num 0,
          (cap.div F64.nan).mul
            (fsqrt ((F64.num 2).mul
              (fln ((F64.num (5 / 4)).div (F64.num d)))))⟩ := by
      simp [dpNew, F64.lt, F64.le, minPosF64, deltaUpperBound, h1, hd2]
    exact ⟨_, hok⟩
  · intro epsilon cap heps
    simp [dpNew, heps, F64.le]

/-- Witness for C10 at `delta = 1/2` (NaN epsilon accepted) and
`epsilon = 1` (NaN delta rejected). -/
theorem dp_new_nan_witness :
    (∃ bm, dpNew (fun x => x) (fun x => x) F64.nan (F64.num (1 / 2))
        (F64.num 0) = Except.ok bm) ∧
      dpNew (fun x => x) (fun x => x) (F64.num 1) F64.nan (F64.num 0) =
        Except.error (DpError.badDelta F64.nan) :=
  ⟨(dp_new_nan (fun x => x) (fun x => x)).1 (1 / 2) (F64.num 0)
      (by norm_num [minPosQ]) (by norm_num [minPosQ]),
    (dp_new_nan (fun x => x) (fun x => x)).2 (F64.num 1) (F64.num 0)
      (by simp [F64.lt, minPosF64, decide_eq_false_iff_not]
          norm_num [minPosQ])⟩

end Ipa
